import Mathlib

/-!
Verification of the BloomDBG assembly core (`src/BloomDBG/bloom-dbg.h`).

Sequences are `List Char`; a k-mer is the length-`k` window of a sequence at
a position whose characters are all in {A,C,G,T} (the rolling-hash iterator
skips windows containing other characters).  A Bloom filter is a bit set
(list of set bit indices) together with an abstract family of hash values
for each k-mer; `contains` holds iff all hash-indexed bits are set, and
`insert` sets them, so false negatives are impossible while false positives
are allowed, exactly as in the source's Bloom filter model.

The de Bruijn graph is exposed through the true-branch oracle
`Graph := V → Direction → List V` (the set of true branches of a vertex in
a direction); `splitPath` and the path extender consult only this oracle,
mirroring the calls to `trueBranches` in the source.
-/

namespace BloomDBG

/-- Function `roundUpToMultiple` from the source, instantiated at the 64-bit unsigned
type used at its call site in `assemble` (`size_t`): all arithmetic is
modulo `2 ^ 64`.  The `base = 0` guard returns `num` before any `%` by
`base` is evaluated, and the other two branches perform no arithmetic on
`num`, so they are exact. -/
def roundUpToMultiple (num base : Nat) : Nat :=
  if base = 0 then num
  else if num % base = 0 then num
  else (num + base - num % base) % 2 ^ 64

/-- Characters accepted by the rolling-hash iterator. -/
def isACGT (c : Char) : Bool :=
  c == 'A' || c == 'C' || c == 'G' || c == 'T'

/-- The length-`k` window of `s` at position `i`. -/
def kmerAt (s : List Char) (k i : Nat) : List Char :=
  (s.drop i).take k

/-- Does position `i` of `s` carry a well-formed k-mer (window of ACGT
characters)?  Positions failing this are skipped by the iterator. -/
def validKmer (s : List Char) (k i : Nat) : Bool :=
  (kmerAt s k i).all isACGT

/-- The k-mer positions of `s` visited by `RollingHashIterator`, in
increasing order: positions `0 .. |s| - k` whose window is all-ACGT. -/
def validPositions (s : List Char) (k : Nat) : List Nat :=
  (List.range (s.length + 1 - k)).filter (fun i => validKmer s k i)

/-- The k-mers of `s` enumerated by the rolling-hash iterator. -/
def kmersOf (s : List Char) (k : Nat) : List (List Char) :=
  (validPositions s k).map (kmerAt s k)

/-- A Bloom filter: kmer size, an abstract family of hash values per k-mer
(the `numHashes` hash outputs, already reduced modulo the bit-array size),
and the list of set bits. -/
structure BloomFilter where
  k : Nat
  hash : List Char → List Nat
  bits : List Nat

/-- Membership test `contains`: all hash-indexed bits are set. -/
def contains (bf : BloomFilter) (w : List Char) : Bool :=
  (bf.hash w).all (fun i => i ∈ bf.bits)

/-- Insertion `insert`: set all hash-indexed bits. -/
def insertKmer (bf : BloomFilter) (w : List Char) : BloomFilter :=
  { bf with bits := bf.bits ++ bf.hash w }

/-- Function `allKmersInBloom` from the source: every k-mer of `seq` is in `bloom`. -/
def allKmersInBloom (seq : List Char) (bloom : BloomFilter) : Bool :=
  (kmersOf seq bloom.k).all (contains bloom)

/-- Function `addKmersToBloom` from the source: insert every k-mer of `seq`. -/
def addKmersToBloom (seq : List Char) (bloom : BloomFilter) : BloomFilter :=
  (kmersOf seq bloom.k).foldl insertKmer bloom

/-- Function `seqToPath` from the source: the path of k-mers of `seq` produced by the
rolling-hash iterator.  Vertex equality in the source is on the `Kmer`
component alone, so a vertex is modelled by its k-mer; the `numHashes`
argument only feeds the carried hash state and is unused here. -/
def seqToPath (seq : List Char) (k numHashes : Nat) : List (List Char) :=
  kmersOf seq k

/-- Function `pathToSeq` from the source: the first k-mer in full, then the last base
of each subsequent k-mer. -/
def pathToSeq (path : List (List Char)) : List Char :=
  match path with
  | [] => []
  | w :: rest => w ++ rest.filterMap (fun t => t.getLast?)

/-- The two traversal directions of the de Bruijn graph. -/
inductive Direction where
  | FORWARD
  | REVERSE
deriving DecidableEq

export Direction (FORWARD REVERSE)

/-- Modelled from the spec: the graph is consulted by `splitPath` and the
path extender only through `trueBranches(v, dir, graph, minBranchLen)`
(Graph/ExtendPath.h, not part of the excerpt), the list of neighbours of
`v` in direction `dir` whose subgraph reaches at least `minBranchLen`
vertices (spec §4.C).  It is modelled as an abstract oracle giving that
list for each vertex and direction; `minBranchLen` is already accounted
for by the oracle. -/
def Graph (V : Type) : Type := V → Direction → List V

/-- The branching test of `splitPath`: `inDegree > 1 || outDegree > 1`
where the degrees are the numbers of true branches in the REVERSE and
FORWARD directions. -/
def isBranch {V : Type} (g : Graph V) (v : V) : Bool :=
  decide ((g v REVERSE).length > 1) || decide ((g v FORWARD).length > 1)

/-- The loop of `splitPath`: `cur` is `currentPath`, the remaining vertices
are consumed one by one; at a branching vertex the current path (ending at
the branch) is emitted and a new current path is seeded with the branch
vertex; at the end the current path is emitted only if it has more than
one vertex. -/
def splitPathGo {V : Type} (isBr : V → Bool) : List V → List V → List (List V)
  | cur, [] => if cur.length > 1 then [cur] else []
  | cur, v :: rest =>
    if isBr v then (cur ++ [v]) :: splitPathGo isBr [v] rest
    else splitPathGo isBr (cur ++ [v]) rest

/-- Function `splitPath` from the source: cut a path at branching vertices. -/
def splitPath {V : Type} (g : Graph V) (path : List V) : List (List V) :=
  splitPathGo (isBranch g) [] path

/-- Concatenation of a list of segments that overlap in exactly one shared
vertex: the first segment in full, then each later segment without its
first vertex. -/
def mergeConcat {V : Type} : List (List V) → List V
  | [] => []
  | s :: rest => s ++ (rest.map List.tail).flatten

/-- Modelled from the spec: the directional path extension engine
`extendPath(path, dir, graph, visited, minBranchLen, NO_LIMIT)`
(Graph/ExtendPath.h, not part of the excerpt), spec §4.D step 2: at each
step consult the true branches of the current end vertex; stop on a dead
end (0) or a true branching point (≥ 2); on a unique neighbour, stop if it
was already visited (cycle), otherwise append it, record it in the visited
set and continue.  `fuel` bounds the iteration and stands in for the
finiteness of the k-mer graph (the source passes `NO_LIMIT`). -/
def extendPathDir {V : Type} [DecidableEq V] (g : Graph V) :
    Nat → Direction → List V → List V → List V × List V
  | 0, _, vis, p => (p, vis)
  | fuel + 1, d, vis, p =>
    let endV : Option V := match d with
      | FORWARD => p.getLast?
      | REVERSE => p.head?
    match endV with
    | none => (p, vis)
    | some v =>
      match g v d with
      | [w] =>
        if w ∈ vis then (p, vis)
        else
          let p' := match d with
            | FORWARD => p ++ [w]
            | REVERSE => w :: p
          extendPathDir g fuel d (w :: vis) p'
      | _ => (p, vis)

/-- The two-sided `extendPath` wrapper from the source: chop
`min(size - 1, minBranchLen)` vertices from the end, extend FORWARD, chop
`min(size - 1, minBranchLen)` (recomputed) from the start, extend REVERSE;
a single visited set is threaded through both phases. -/
def extendPath {V : Type} [DecidableEq V] (g : Graph V) (minBranchLen fuel : Nat)
    (path : List V) : List V :=
  let chop1 := min (path.length - 1) minBranchLen
  let p1 := path.take (path.length - chop1)
  let r1 := extendPathDir g fuel FORWARD [] p1
  let chop2 := min (r1.1.length - 1) minBranchLen
  let p3 := r1.1.drop chop2
  (extendPathDir g fuel REVERSE r1.2 p3).1

/-- The mutable state of the `trimSeq` scan.  `none` plays the role of the
sentinel `UNSET`. -/
structure TrimState where
  prevPos : Option Nat
  matchStart : Option Nat
  matchLen : Nat
  maxMatchStart : Option Nat
  maxMatchLen : Nat

/-- One iteration of the `trimSeq` loop at k-mer position `p`. -/
def trimStep (F : BloomFilter) (s : List Char) (st : TrimState) (p : Nat) :
    TrimState :=
  let inF := contains F (kmerAt s F.k p)
  let isGap : Bool := match st.prevPos with
    | some pp => decide (p - pp > 1)
    | none => false
  let st1 :=
    if !inF || isGap then
      if st.matchStart.isSome && decide (st.matchLen > st.maxMatchLen) then
        { st with maxMatchStart := st.matchStart, maxMatchLen := st.matchLen,
                  matchStart := none, matchLen := 0 }
      else
        { st with matchStart := none, matchLen := 0 }
    else st
  let st2 :=
    if inF then
      { st1 with
        matchStart := if st1.matchStart.isSome then st1.matchStart else some p,
        matchLen := st1.matchLen + 1 }
    else st1
  { st2 with prevPos := some p }

/-- The flush after the `trimSeq` loop (`matchStart != UNSET && matchLen >
maxMatchLen`), returning the final `(maxMatchStart, maxMatchLen)`. -/
def trimFlush (st : TrimState) : Option Nat × Nat :=
  if st.matchStart.isSome && decide (st.matchLen > st.maxMatchLen) then
    (st.matchStart, st.matchLen)
  else (st.maxMatchStart, st.maxMatchLen)

/-- Function `trimSeq` from the source: trim `seq` to its longest run of consecutive
k-mer positions whose k-mers are all in `goodKmerSet`; the result is
`seq.substr(maxMatchStart, maxMatchLen + k - 1)`, or empty when the
sequence is shorter than `k` or no k-mer matches. -/
def trimSeq (seq : List Char) (goodKmerSet : BloomFilter) : List Char :=
  if seq.length < goodKmerSet.k then []
  else
    let st := (validPositions seq goodKmerSet.k).foldl
      (trimStep goodKmerSet seq) ⟨none, none, 0, none, 0⟩
    let fl := trimFlush st
    if fl.2 = 0 then []
    else
      match fl.1 with
      | some a => (seq.drop a).take (fl.2 + goodKmerSet.k - 1)
      | none => []

/-- A FASTA input record. -/
structure Read where
  id : List Char
  seq : List Char
deriving DecidableEq

/-- An emitted contig record: the source writes the FASTA id
`"<contigID> read:<rec.id>"` followed by the contig sequence; the id is
modelled by its two components. -/
structure Contig where
  cid : Nat
  rid : List Char
  seq : List Char
deriving DecidableEq

/-- The sequential state of `assemble`: the `assembled` k-mer Bloom filter,
the output stream, the next contig id and the three counters. -/
structure AsmState where
  assembled : BloomFilter
  output : List Contig
  contigID : Nat
  readsProcessed : Nat
  readsExtended : Nat
  basesAssembled : Nat

/-- The emission step of `assemble` for one (possibly extended) segment,
the body of the `critical(out)` region: re-test `allKmersInBloom` against
`assembled`; if some k-mer is missing, first insert all k-mers of the
contig into `assembled`, then write the record and update the counters. -/
def processSegment (rid : List Char) (st : AsmState) (seg : List (List Char)) :
    AsmState :=
  let sq := pathToSeq seg
  if allKmersInBloom sq st.assembled then st
  else
    let st1 := { st with assembled := addKmersToBloom sq st.assembled }
    { st1 with
      output := st1.output ++ [⟨st1.contigID, rid, sq⟩],
      contigID := st1.contigID + 1,
      basesAssembled := st1.basesAssembled + sq.length }

section Assemble

variable (good : BloomFilter) (hashA : List Char → List Nat)
variable (g : Graph (List Char)) (fuel : Nat)

/-- The per-read body of the `assemble` loop, single-threaded: the three
skip tests in source order, then path conversion, splitting at branch
points, extension of the first and last segments only, and emission of
each segment; the counters are updated as in the source. -/
def processRead (st : AsmState) (r : Read) : AsmState :=
  if r.seq.length < good.k then
    { st with readsProcessed := st.readsProcessed + 1 }
  else if !allKmersInBloom r.seq good then
    { st with readsProcessed := st.readsProcessed + 1 }
  else if allKmersInBloom r.seq st.assembled then
    { st with readsProcessed := st.readsProcessed + 1 }
  else
    let path := seqToPath r.seq good.k 0
    let segs := splitPath g path
    let segs2 := segs.enum.map (fun iv =>
      if iv.1 = 0 || iv.1 = segs.length - 1 then
        extendPath g (good.k + 1) fuel iv.2
      else iv.2)
    let st' := segs2.foldl (processSegment r.id) st
    { st' with
      readsExtended := st'.readsExtended + 1,
      readsProcessed := st'.readsProcessed + 1 }

/-- The initial state of `assemble`: a freshly allocated (empty) assembled
filter with the same k-mer size as `good` (its hash family `hashA` is its
own, being sized by the genome size), empty output and zero counters. -/
def initState : AsmState :=
  ⟨⟨good.k, hashA, []⟩, [], 0, 0, 0, 0⟩

/-- The whole single-threaded `assemble` run over a list of reads. -/
def runAssemble (reads : List Read) : AsmState :=
  reads.foldl (processRead good g fuel) (initState good hashA)

end Assemble

/-! ### C8: `roundUpToMultiple` -/

/-- Counterexample to C8 as stated: at `num = 2^64 - 1`, `base = 64` the
unsigned addition wraps around and the function returns `0`, which is not
a multiple of `64` at least `num`. -/
theorem roundUpToMultiple_wraps :
    roundUpToMultiple (2 ^ 64 - 1) 64 = 0 ∧
    ¬(2 ^ 64 - 1 ≤ roundUpToMultiple (2 ^ 64 - 1) 64) := by
  constructor
  · decide
  · decide

/-- C8 (amended): if `base = 0` the function returns `num` unchanged
(without evaluating any modulo), and if `base > 0` and the smallest
multiple of `base` that is `≥ num` is representable (below `2^64`), the
function returns exactly that multiple. -/
theorem roundUpToMultiple_correct (num base : Nat)
    (hov : base = 0 ∨ num + (base - num % base) % base < 2 ^ 64) :
    (base = 0 → roundUpToMultiple num base = num) ∧
    (0 < base →
      num ≤ roundUpToMultiple num base ∧
      base ∣ roundUpToMultiple num base ∧
      ∀ m, base ∣ m → num ≤ m → roundUpToMultiple num base ≤ m) := by
  constructor
  · intro hb
    simp [roundUpToMultiple, hb]
  · intro hb
    have hb0 : base ≠ 0 := Nat.pos_iff_ne_zero.mp hb
    rcases Nat.eq_zero_or_pos (num % base) with hr | hr
    · have hres : roundUpToMultiple num base = num := by
        simp [roundUpToMultiple, hb0, hr]
      refine ⟨le_of_eq hres.symm, ?_, ?_⟩
      · rw [hres]; exact Nat.dvd_of_mod_eq_zero hr
      · intro m _ hm; rw [hres]; exact hm
    · set r := num % base with hrdef
      have hrlt : r < base := Nat.mod_lt _ hb
      have hrle : r ≤ num := Nat.mod_le _ _
      have hsub : (base - r) % base = base - r :=
        Nat.mod_eq_of_lt (Nat.sub_lt hb hr)
      have hlt : num + (base - r) < 2 ^ 64 := by
        rcases hov with h0 | h1
        · exact absurd h0 hb0
        · rwa [hsub] at h1
      have hassoc : num + base - r = num + (base - r) :=
        Nat.add_sub_assoc (le_of_lt hrlt) num
      have hres : roundUpToMultiple num base = num + (base - r) := by
        unfold roundUpToMultiple
        rw [if_neg hb0, if_neg (Nat.pos_iff_ne_zero.mp hr), ← hrdef, hassoc,
          Nat.mod_eq_of_lt hlt]
      obtain ⟨q, hq⟩ : ∃ q, base * q + r = num := ⟨num / base, Nat.div_add_mod num base⟩
      have hval : roundUpToMultiple num base = base * (q + 1) := by
        rw [hres, ← hq, Nat.mul_succ]; omega
      refine ⟨?_, ?_, ?_⟩
      · rw [hres]; exact Nat.le_add_right _ _
      · rw [hval]; exact Dvd.intro _ rfl
      · intro m hdvd hm
        obtain ⟨t, rfl⟩ := hdvd
        rw [hval]
        have hqt : q + 1 ≤ t := by
          by_contra hcon
          have ht : t ≤ q := by omega
          have : base * t ≤ base * q := Nat.mul_le_mul_left base ht
          omega
        exact Nat.mul_le_mul_left base hqt

/-- Witness for `roundUpToMultiple_correct` at `num = 100`, `base = 64`. -/
theorem roundUpToMultiple_correct_witness :
    100 ≤ roundUpToMultiple 100 64 ∧
    64 ∣ roundUpToMultiple 100 64 ∧
    ∀ m, 64 ∣ m → 100 ≤ m → roundUpToMultiple 100 64 ≤ m :=
  (roundUpToMultiple_correct 100 64 (Or.inr (by decide))).2 (by decide)

/-! ### C2: `pathToSeq ∘ seqToPath` roundtrip -/

/-- The windows of `s` at every position `0 .. |s| - k`, in order; for an
all-ACGT sequence this is what the rolling-hash iterator enumerates. -/
def acgtWindows (s : List Char) (k : Nat) : List (List Char) :=
  (List.range (s.length + 1 - k)).map (fun i => kmerAt s k i)

theorem kmerAt_cons (c : Char) (s : List Char) (k i : Nat) :
    kmerAt (c :: s) k (i + 1) = kmerAt s k i := by
  simp [kmerAt]

theorem validPositions_all_acgt (s : List Char) (k : Nat)
    (hs : s.all isACGT = true) :
    validPositions s k = List.range (s.length + 1 - k) := by
  unfold validPositions
  rw [List.filter_eq_self]
  intro i _
  unfold validKmer kmerAt
  rw [List.all_eq_true]
  intro c hc
  exact List.all_eq_true.mp hs c
    (List.mem_of_mem_drop (List.mem_of_mem_take hc))

theorem kmersOf_all_acgt (s : List Char) (k : Nat) (hs : s.all isACGT = true) :
    kmersOf s k = acgtWindows s k := by
  unfold kmersOf acgtWindows
  rw [validPositions_all_acgt s k hs]

theorem acgtWindows_cons (c : Char) (s : List Char) (k : Nat)
    (h : k ≤ s.length) :
    acgtWindows (c :: s) k = kmerAt (c :: s) k 0 :: acgtWindows s k := by
  unfold acgtWindows
  have hlen : (c :: s).length + 1 - k = (s.length + 1 - k) + 1 := by
    simp only [List.length_cons]; omega
  rw [hlen, List.range_succ_eq_map, List.map_cons, List.map_map]
  rfl

theorem pathToSeq_nil : pathToSeq [] = [] := rfl

theorem pathToSeq_cons (w : List Char) (rest : List (List Char)) :
    pathToSeq (w :: rest) = w ++ rest.filterMap (fun t => t.getLast?) := rfl

theorem pathToSeq_acgtWindows (s : List Char) (k : Nat) (hk : 1 ≤ k)
    (hlen : k ≤ s.length) : pathToSeq (acgtWindows s k) = s := by
  induction s with
  | nil => simp at hlen; omega
  | cons c s' ih =>
    by_cases hks : k ≤ s'.length
    · rw [acgtWindows_cons c s' k hks]
      obtain ⟨k', rfl⟩ : ∃ k', k = k' + 1 :=
        ⟨k - 1, (Nat.succ_pred_eq_of_pos hk).symm⟩
      have hw0 : kmerAt (c :: s') (k' + 1) 0 = c :: s'.take k' := by
        simp [kmerAt]
      obtain ⟨rest, hrest⟩ : ∃ rest,
          acgtWindows s' (k' + 1) = s'.take (k' + 1) :: rest := by
        unfold acgtWindows
        obtain ⟨m, hm⟩ : ∃ m, s'.length + 1 - (k' + 1) = m + 1 :=
          ⟨s'.length - (k' + 1), by omega⟩
        refine ⟨(List.range m).map (fun i => kmerAt s' (k' + 1) (i + 1)), ?_⟩
        rw [hm, List.range_succ_eq_map, List.map_cons, List.map_map]
        congr 1
      obtain ⟨a, ha⟩ : ∃ a, s'[k']? = some a := by
        have hk' : k' < s'.length := by omega
        exact ⟨s'[k'], List.getElem?_eq_getElem hk'⟩
      have htake : s'.take (k' + 1) = s'.take k' ++ [a] := by
        rw [List.take_succ, ha]; rfl
      have hlast : (s'.take (k' + 1)).getLast? = some a := by
        rw [htake]; exact List.getLast?_concat _
      have hih : pathToSeq (acgtWindows s' (k' + 1)) = s' := ih hks
      rw [hrest, pathToSeq_cons] at hih
      have hfm : List.filterMap (fun t => t.getLast?)
          (s'.take (k' + 1) :: rest) =
          a :: List.filterMap (fun t => t.getLast?) rest := by
        rw [List.filterMap_cons, hlast]
      rw [pathToSeq_cons, hrest, hfm, hw0]
      rw [htake] at hih
      simp only [List.append_assoc, List.singleton_append] at hih
      simp only [List.cons_append]
      rw [hih]
    · have hkeq : k = s'.length + 1 := by
        simp only [List.length_cons] at hlen; omega
      subst hkeq
      have hone : acgtWindows (c :: s') (s'.length + 1) = [c :: s'] := by
        unfold acgtWindows
        have h1 : (c :: s').length + 1 - (s'.length + 1) = 1 := by
          simp only [List.length_cons]; omega
        rw [h1]
        simp [List.range_succ, kmerAt, List.take_of_length_le]
      rw [hone, pathToSeq_cons]
      simp

/-- C2: for every ACGT-only sequence `s` with `|s| ≥ k` (and `k ≥ 1`, as
the k-mer size always is), `pathToSeq (seqToPath s k h) = s` for any hash
count `h`. -/
theorem seqToPath_roundtrip (s : List Char) (k h : Nat) (hk : 1 ≤ k)
    (hlen : k ≤ s.length) (hs : s.all isACGT = true) :
    pathToSeq (seqToPath s k h) = s := by
  unfold seqToPath
  rw [kmersOf_all_acgt s k hs]
  exact pathToSeq_acgtWindows s k hk hlen

/-- Witness for `seqToPath_roundtrip` at `s = ACGTA`, `k = 3`, `h = 2`. -/
theorem seqToPath_roundtrip_witness :
    pathToSeq (seqToPath ['A', 'C', 'G', 'T', 'A'] 3 2) =
      ['A', 'C', 'G', 'T', 'A'] :=
  seqToPath_roundtrip _ 3 2 (by decide) (by decide) (by decide)

/-! ### C4, C5: `splitPath` -/

section SplitPath

variable {V : Type} (isBr : V → Bool)

theorem splitPathGo_head_append (rest : List V) :
    ∀ cur s, (splitPathGo isBr cur rest).head? = some s → ∃ e, s = cur ++ e := by
  induction rest with
  | nil =>
    intro cur s h
    unfold splitPathGo at h
    by_cases hlen : cur.length > 1
    · rw [if_pos hlen] at h
      exact ⟨[], by simpa using h.symm⟩
    · rw [if_neg hlen] at h
      simp at h
  | cons v rest' ih =>
    intro cur s h
    unfold splitPathGo at h
    by_cases hbr : isBr v
    · rw [if_pos hbr] at h
      simp only [List.head?_cons, Option.some.injEq] at h
      exact ⟨[v], h.symm⟩
    · rw [if_neg hbr] at h
      obtain ⟨e, he⟩ := ih (cur ++ [v]) s h
      exact ⟨[v] ++ e, by simp [he]⟩

theorem splitPathGo_seeded_head (rest : List V) (v : V) (s : List V)
    (h : (splitPathGo isBr [v] rest).head? = some s) : 2 ≤ s.length := by
  cases rest with
  | nil =>
    unfold splitPathGo at h
    simp at h
  | cons v1 r =>
    unfold splitPathGo at h
    by_cases hbr : isBr v1
    · rw [if_pos hbr] at h
      simp only [List.head?_cons, Option.some.injEq] at h
      subst h
      simp
    · rw [if_neg hbr] at h
      obtain ⟨e, he⟩ := splitPathGo_head_append isBr r ([v] ++ [v1]) s h
      subst he
      simp

theorem splitPathGo_len (rest : List V) :
    ∀ cur s, s ∈ splitPathGo isBr cur rest →
      2 ≤ s.length ∨
      (∃ e, s = cur ++ e ∧ (splitPathGo isBr cur rest).head? = some s) := by
  induction rest with
  | nil =>
    intro cur s h
    unfold splitPathGo at h
    by_cases hlen : cur.length > 1
    · rw [if_pos hlen] at h
      simp only [List.mem_singleton] at h
      subst h
      exact Or.inl hlen
    · rw [if_neg hlen] at h
      simp at h
  | cons v rest' ih =>
    intro cur s h
    unfold splitPathGo at h ⊢
    by_cases hbr : isBr v
    · rw [if_pos hbr] at h ⊢
      rcases List.mem_cons.mp h with h1 | h2
      · subst h1
        exact Or.inr ⟨[v], rfl, rfl⟩
      · rcases ih [v] s h2 with hl | ⟨e, he, hh⟩
        · exact Or.inl hl
        · exact Or.inl (splitPathGo_seeded_head isBr rest' v s hh)
    · rw [if_neg hbr] at h ⊢
      rcases ih (cur ++ [v]) s h with hl | ⟨e, he, hh⟩
      · exact Or.inl hl
      · exact Or.inr ⟨[v] ++ e, by simp [he], hh⟩

end SplitPath

/-- A graph in which every vertex has two true branches in each direction. -/
def exGraphBr : Graph (List Char) := fun _ _ => [['A'], ['C']]

/-- A graph with no true branches at all. -/
def exGraphNone : Graph (List Char) := fun _ _ => []

/-- Counterexample to C4 as stated: on a one-vertex path whose vertex is a
branching vertex, `splitPath` emits that vertex as a singleton segment, so
a returned segment can have fewer than 2 vertices. -/
theorem splitPath_singleton_cex :
    splitPath exGraphBr [['A']] = [[['A']]] ∧
    ∃ s ∈ splitPath exGraphBr [['A']], s.length < 2 := by
  constructor
  · rfl
  · exact ⟨[['A']], by simp [splitPath, splitPathGo, isBranch, exGraphBr], by decide⟩

/-- C4 (amended): every segment returned by `splitPath` has at least 2
vertices, except that the first returned segment may be the singleton
consisting of the path's first vertex, which happens only when that first
vertex is a branching vertex; in particular a trailing singleton segment
is always discarded. -/
theorem splitPath_min_len {V : Type} (g : Graph V) (p : List V) :
    ∀ s ∈ splitPath g p,
      2 ≤ s.length ∨
      (∃ v, p.head? = some v ∧ s = [v] ∧ isBranch g v = true ∧
        (splitPath g p).head? = some s) := by
  intro s hs
  cases p with
  | nil =>
    unfold splitPath splitPathGo at hs
    simp at hs
  | cons v rest =>
    unfold splitPath splitPathGo at hs
    by_cases hbr : isBranch g v
    · rw [if_pos hbr] at hs
      rcases List.mem_cons.mp hs with h1 | h2
      · subst h1
        refine Or.inr ⟨v, rfl, rfl, hbr, ?_⟩
        unfold splitPath splitPathGo
        rw [if_pos hbr]
        rfl
      · rcases splitPathGo_len (isBranch g) rest [v] s h2 with hl | ⟨e, he, hh⟩
        · exact Or.inl hl
        · exact Or.inl (splitPathGo_seeded_head (isBranch g) rest v s hh)
    · rw [if_neg hbr] at hs
      rcases splitPathGo_len (isBranch g) rest ([] ++ [v]) s hs with hl | ⟨e, he, hh⟩
      · exact Or.inl hl
      · exact Or.inl (splitPathGo_seeded_head (isBranch g) rest v s (by simpa using hh))

/-- Witness for `splitPath_min_len` on a two-vertex branch-free path. -/
theorem splitPath_min_len_witness :
    2 ≤ ([['A'], ['C']] : List (List Char)).length ∨
    (∃ v, ([['A'], ['C']] : List (List Char)).head? = some v ∧
      ([['A'], ['C']] : List (List Char)) = [v] ∧ isBranch exGraphNone v = true ∧
      (splitPath exGraphNone [['A'], ['C']]).head? = some [['A'], ['C']]) :=
  splitPath_min_len exGraphNone [['A'], ['C']] [['A'], ['C']] (by decide)

section SplitCover

variable {V : Type} (isBr : V → Bool)

theorem mergeConcat_cons (s : List V) (rest : List (List V)) :
    mergeConcat (s :: rest) = s ++ (rest.map List.tail).flatten := rfl

theorem tail_flatten_eq (s₀ : List V) (t : List (List V)) (h : s₀ ≠ []) :
    ((s₀ :: t).map List.tail).flatten = (mergeConcat (s₀ :: t)).tail := by
  cases s₀ with
  | nil => exact absurd rfl h
  | cons x s₀' => simp [mergeConcat_cons]

theorem mergeConcat_cons_of (x : List V) (S : List (List V)) (w : V)
    (rest : List V) (hS : mergeConcat S = w :: rest)
    (hhead : ∀ s₀, S.head? = some s₀ → s₀ ≠ []) :
    mergeConcat (x :: S) = x ++ rest := by
  cases S with
  | nil => simp [mergeConcat] at hS
  | cons s₀ t =>
    have h0 : s₀ ≠ [] := hhead s₀ rfl
    rw [mergeConcat_cons, tail_flatten_eq s₀ t h0, hS]
    rfl

theorem splitPathGo_cover (rest : List V) :
    ∀ cur, cur ≠ [] →
      (splitPathGo isBr cur rest = [] ∧ rest = [] ∧ cur.length = 1) ∨
      mergeConcat (splitPathGo isBr cur rest) = cur ++ rest := by
  induction rest with
  | nil =>
    intro cur hcur
    unfold splitPathGo
    by_cases hlen : cur.length > 1
    · rw [if_pos hlen]
      right
      simp [mergeConcat_cons]
    · rw [if_neg hlen]
      left
      refine ⟨rfl, rfl, ?_⟩
      have : cur.length ≠ 0 := fun h => hcur (List.length_eq_zero.mp h)
      omega
  | cons v rest' ih =>
    intro cur hcur
    unfold splitPathGo
    by_cases hbr : isBr v
    · rw [if_pos hbr]
      right
      rcases ih [v] (by simp) with ⟨_, hr, _⟩ | hS
      · subst hr
        unfold splitPathGo
        rw [if_neg (by simp)]
        simp [mergeConcat_cons]
      · have hS' : mergeConcat (splitPathGo isBr [v] rest') = v :: rest' := by
          simpa using hS
        rw [mergeConcat_cons_of (cur ++ [v]) _ v rest' hS' ?hh]
        · simp
        case hh =>
          intro s₀ h0
          obtain ⟨e, he⟩ := splitPathGo_head_append isBr rest' [v] s₀ h0
          subst he
          simp
    · rw [if_neg hbr]
      rcases ih (cur ++ [v]) (by simp) with ⟨_, _, hlen⟩ | hS
      · have : cur.length + 1 = 1 := by simpa using hlen
        have : cur.length = 0 := by omega
        exact absurd (List.length_eq_zero.mp this) hcur
      · right
        rw [hS]
        simp

theorem splitPathGo_chain (rest : List V) :
    ∀ cur, List.Chain'
      (fun s t => s.getLast? = t.head? ∧ ∃ v, s.getLast? = some v ∧ isBr v = true)
      (splitPathGo isBr cur rest) := by
  induction rest with
  | nil =>
    intro cur
    unfold splitPathGo
    by_cases hlen : cur.length > 1
    · rw [if_pos hlen]; exact List.chain'_singleton _
    · rw [if_neg hlen]; exact List.chain'_nil
  | cons v rest' ih =>
    intro cur
    unfold splitPathGo
    by_cases hbr : isBr v
    · rw [if_pos hbr]
      rw [List.chain'_cons']
      refine ⟨?_, ih [v]⟩
      intro y hy
      obtain ⟨e, he⟩ := splitPathGo_head_append isBr rest' [v] y hy
      subst he
      refine ⟨?_, v, List.getLast?_concat _, hbr⟩
      rw [List.getLast?_concat]
      rfl
    · rw [if_neg hbr]
      exact ih (cur ++ [v])

theorem splitPathGo_interior (rest : List V) :
    ∀ cur, (∀ x ∈ cur.tail, isBr x = false) →
      ∀ s ∈ splitPathGo isBr cur rest, ∀ x ∈ s.tail.dropLast, isBr x = false := by
  induction rest with
  | nil =>
    intro cur hcur s hs x hx
    unfold splitPathGo at hs
    by_cases hlen : cur.length > 1
    · rw [if_pos hlen] at hs
      simp only [List.mem_singleton] at hs
      subst hs
      exact hcur x ((List.dropLast_sublist _).subset hx)
    · rw [if_neg hlen] at hs
      simp at hs
  | cons v rest' ih =>
    intro cur hcur s hs x hx
    unfold splitPathGo at hs
    by_cases hbr : isBr v
    · rw [if_pos hbr] at hs
      rcases List.mem_cons.mp hs with h1 | h2
      · subst h1
        cases cur with
        | nil => simp at hx
        | cons c cur'' =>
          have htl : ((c :: cur'') ++ [v]).tail.dropLast = cur'' := by
            simp
          rw [htl] at hx
          exact hcur x hx
      · exact ih [v] (by simp) s h2 x hx
    · rw [if_neg hbr] at hs
      refine ih (cur ++ [v]) ?_ s hs x hx
      intro y hy
      cases cur with
      | nil => simp at hy
      | cons c cur'' =>
        simp only [List.cons_append, List.tail_cons] at hy
        rcases List.mem_append.mp hy with h1 | h2
        · exact hcur y h1
        · simp only [List.mem_singleton] at h2
          subst h2
          simpa using hbr

end SplitCover

/-- Counterexample to C5 as stated: a one-vertex path at a non-branching
vertex produces no segments at all, so the merged concatenation of the
segments is empty and does not reproduce the path. -/
theorem splitPath_cover_cex :
    mergeConcat (splitPath exGraphNone [['A']]) ≠ [['A']] := by
  decide

/-- C5 (amended): for every path `p` with at least two vertices, the
segments of `splitPath p g` cover `p`: concatenating their vertex
sequences with the shared vertices merged reproduces `p` exactly,
consecutive segments overlap in exactly one vertex which is a branching
vertex (`|trueBranches(v,FORWARD)| > 1` or `|trueBranches(v,REVERSE)| > 1`),
and no segment contains a branching vertex strictly in its interior (cuts
occur exactly at branching vertices).  A one-vertex path at a
non-branching vertex instead yields no segments. -/
theorem splitPath_cover {V : Type} (g : Graph V) (p : List V)
    (hp : 2 ≤ p.length) :
    mergeConcat (splitPath g p) = p ∧
    List.Chain'
      (fun s t => s.getLast? = t.head? ∧
        ∃ v, s.getLast? = some v ∧ isBranch g v = true)
      (splitPath g p) ∧
    ∀ s ∈ splitPath g p, ∀ x ∈ s.tail.dropLast, isBranch g x = false := by
  refine ⟨?_, splitPathGo_chain (isBranch g) p [], ?_⟩
  · cases p with
    | nil => simp at hp
    | cons v rest =>
      have hrest : rest ≠ [] := by
        intro h
        subst h
        simp at hp
      unfold splitPath splitPathGo
      by_cases hbr : isBranch g v
      · rw [if_pos hbr]
        rcases splitPathGo_cover (isBranch g) rest [v] (by simp) with ⟨_, hr, _⟩ | hS
        · exact absurd hr hrest
        · have hS' : mergeConcat (splitPathGo (isBranch g) [v] rest) = v :: rest := by
            simpa using hS
          rw [mergeConcat_cons_of ([] ++ [v]) _ v rest hS' ?hh]
          · simp
          case hh =>
            intro s₀ h0
            obtain ⟨e, he⟩ := splitPathGo_head_append (isBranch g) rest [v] s₀ h0
            subst he
            simp
      · rw [if_neg hbr]
        rcases splitPathGo_cover (isBranch g) rest ([] ++ [v]) (by simp) with ⟨_, hr, _⟩ | hS
        · exact absurd hr hrest
        · simpa using hS
  · exact splitPathGo_interior (isBranch g) p [] (by simp)

/-- Witness for `splitPath_cover` on a two-vertex branch-free path. -/
theorem splitPath_cover_witness :
    mergeConcat (splitPath exGraphNone [['A'], ['C']]) = [['A'], ['C']] :=
  (splitPath_cover exGraphNone [['A'], ['C']] (by decide)).1

/-! ### C6, C9: `extendPath` -/

/-- The directional extension engine never removes vertices: its result is
at least as long as its input path. -/
theorem extendPathDir_length {V : Type} [DecidableEq V] (g : Graph V)
    (fuel : Nat) (d : Direction) (vis p : List V) :
    p.length ≤ (extendPathDir g fuel d vis p).1.length := by
  induction fuel generalizing vis p with
  | zero => simp [extendPathDir]
  | succ n ih =>
    cases d with
    | FORWARD =>
      cases hE : p.getLast? with
      | none => simp [extendPathDir, hE]
      | some v =>
        rcases hN : g v FORWARD with _ | ⟨w, _ | ⟨w2, ws⟩⟩
        · simp [extendPathDir, hE, hN]
        · by_cases hvis : w ∈ vis
          · simp [extendPathDir, hE, hN, hvis]
          · have hrec : (extendPathDir g (n + 1) FORWARD vis p).1 =
                (extendPathDir g n FORWARD (w :: vis) (p ++ [w])).1 := by
              simp [extendPathDir, hE, hN, hvis]
            rw [hrec]
            calc p.length ≤ (p ++ [w]).length := by simp
              _ ≤ _ := ih (w :: vis) (p ++ [w])
        · simp [extendPathDir, hE, hN]
    | REVERSE =>
      cases hE : p.head? with
      | none => simp [extendPathDir, hE]
      | some v =>
        rcases hN : g v REVERSE with _ | ⟨w, _ | ⟨w2, ws⟩⟩
        · simp [extendPathDir, hE, hN]
        · by_cases hvis : w ∈ vis
          · simp [extendPathDir, hE, hN, hvis]
          · have hrec : (extendPathDir g (n + 1) REVERSE vis p).1 =
                (extendPathDir g n REVERSE (w :: vis) (w :: p)).1 := by
              simp [extendPathDir, hE, hN, hvis]
            rw [hrec]
            calc p.length ≤ (w :: p).length := by simp
              _ ≤ _ := ih (w :: vis) (w :: p)
        · simp [extendPathDir, hE, hN]

/-- C6: `extendPath` first removes exactly `min(path.len - 1, minBranchLen)`
vertices from the end of the path (keeping the prefix of the remaining
length) and extends FORWARD starting from an empty visited set; it then
removes exactly `min(len - 1, minBranchLen)` vertices — recomputed on the
current path — from the start and extends REVERSE, where the visited set
passed to the REVERSE phase is exactly the one produced by the FORWARD
phase. -/
theorem extendPath_phases {V : Type} [DecidableEq V] (g : Graph V)
    (m fuel : Nat) (path : List V) :
    ∃ p2 vis2,
      (p2, vis2) =
        extendPathDir g fuel FORWARD []
          (path.take (path.length - min (path.length - 1) m)) ∧
      extendPath g m fuel path =
        (extendPathDir g fuel REVERSE vis2 (p2.drop (min (p2.length - 1) m))).1 ∧
      (path.take (path.length - min (path.length - 1) m)).length =
        path.length - min (path.length - 1) m ∧
      (p2.drop (min (p2.length - 1) m)).length =
        p2.length - min (p2.length - 1) m := by
  refine ⟨_, _, rfl, rfl, ?_, List.length_drop _ _⟩
  rw [List.length_take]
  omega

/-- C9: on a non-empty path, `extendPath` returns a non-empty path: each
chop removes at most `path.size() - 1` vertices (at least one vertex of
the current path survives each chop), and the directional extension
phases only add vertices. -/
theorem extendPath_nonempty {V : Type} [DecidableEq V] (g : Graph V)
    (m fuel : Nat) (path : List V) (hne : path ≠ []) :
    extendPath g m fuel path ≠ [] ∧
    1 ≤ path.length - min (path.length - 1) m := by
  have hlen : 1 ≤ path.length := List.length_pos.mpr hne
  have hchop1 : 1 ≤ path.length - min (path.length - 1) m := by omega
  refine ⟨?_, hchop1⟩
  unfold extendPath
  set p1 := path.take (path.length - min (path.length - 1) m) with hp1
  have hp1len : 1 ≤ p1.length := by
    rw [hp1, List.length_take]
    omega
  set r1 := extendPathDir g fuel FORWARD [] p1 with hr1
  have hp2len : 1 ≤ r1.1.length :=
    le_trans hp1len (extendPathDir_length g fuel FORWARD [] p1)
  set p3 := r1.1.drop (min (r1.1.length - 1) m) with hp3
  have hp3len : 1 ≤ p3.length := by
    rw [hp3, List.length_drop]
    omega
  have hfin : 1 ≤ (extendPathDir g fuel REVERSE r1.2 p3).1.length :=
    le_trans hp3len (extendPathDir_length g fuel REVERSE r1.2 p3)
  intro hcon
  rw [hcon] at hfin
  simp at hfin

/-- Witness for `extendPath_nonempty` on a one-vertex path. -/
theorem extendPath_nonempty_witness :
    extendPath exGraphNone 5 3 [['A']] ≠ [] ∧
    1 ≤ ([['A']] : List (List Char)).length - min (([['A']] : List (List Char)).length - 1) 5 :=
  extendPath_nonempty exGraphNone 5 3 [['A']] (by decide)

/-! ### Bloom filter monotonicity helpers -/

theorem foldl_insertKmer_k (ws : List (List Char)) :
    ∀ bf : BloomFilter, (ws.foldl insertKmer bf).k = bf.k := by
  induction ws with
  | nil => intro bf; rfl
  | cons x rest ih => intro bf; exact ih (insertKmer bf x)

theorem foldl_insertKmer_hash (ws : List (List Char)) :
    ∀ bf : BloomFilter, (ws.foldl insertKmer bf).hash = bf.hash := by
  induction ws with
  | nil => intro bf; rfl
  | cons x rest ih => intro bf; exact ih (insertKmer bf x)

theorem foldl_insertKmer_bits (ws : List (List Char)) :
    ∀ bf : BloomFilter, bf.bits ⊆ (ws.foldl insertKmer bf).bits := by
  induction ws with
  | nil => intro bf; exact fun _ h => h
  | cons x rest ih =>
    intro bf i hi
    exact ih (insertKmer bf x) (by simp [insertKmer, hi])

theorem contains_mono (bf bf' : BloomFilter) (w : List Char)
    (hh : bf'.hash = bf.hash) (hb : bf.bits ⊆ bf'.bits)
    (hc : contains bf w = true) : contains bf' w = true := by
  unfold contains at hc ⊢
  rw [hh]
  rw [List.all_eq_true] at hc ⊢
  intro i hi
  have := hc i hi
  simp only [decide_eq_true_eq] at this ⊢
  exact hb this

theorem allKmersInBloom_mono (sq : List Char) (bf bf' : BloomFilter)
    (hk : bf'.k = bf.k) (hh : bf'.hash = bf.hash) (hb : bf.bits ⊆ bf'.bits)
    (h : allKmersInBloom sq bf = true) : allKmersInBloom sq bf' = true := by
  unfold allKmersInBloom at h ⊢
  rw [hk]
  rw [List.all_eq_true] at h ⊢
  intro w hw
  exact contains_mono bf bf' w hh hb (h w hw)

theorem addKmersToBloom_k (sq : List Char) (bf : BloomFilter) :
    (addKmersToBloom sq bf).k = bf.k := foldl_insertKmer_k _ bf

theorem addKmersToBloom_hash (sq : List Char) (bf : BloomFilter) :
    (addKmersToBloom sq bf).hash = bf.hash := foldl_insertKmer_hash _ bf

theorem addKmersToBloom_bits (sq : List Char) (bf : BloomFilter) :
    bf.bits ⊆ (addKmersToBloom sq bf).bits := foldl_insertKmer_bits _ bf

theorem mem_foldl_insertKmer_contains (ws : List (List Char)) :
    ∀ (bf : BloomFilter) (w : List Char), w ∈ ws →
      contains (ws.foldl insertKmer bf) w = true := by
  induction ws with
  | nil => intro bf w h; simp at h
  | cons x rest ih =>
    intro bf w hw
    rcases List.mem_cons.mp hw with h1 | h2
    · subst h1
      have hsub : (insertKmer bf w).bits ⊆ (rest.foldl insertKmer (insertKmer bf w)).bits :=
        foldl_insertKmer_bits rest (insertKmer bf w)
      have hc : contains (insertKmer bf w) w = true := by
        unfold contains insertKmer
        rw [List.all_eq_true]
        intro i hi
        simp only [decide_eq_true_eq]
        simp [hi]
      exact contains_mono (insertKmer bf w) _ w
        (foldl_insertKmer_hash rest (insertKmer bf w)) hsub hc
    · exact ih (insertKmer bf x) w h2

theorem addKmersToBloom_contains (sq : List Char) (bf : BloomFilter)
    (w : List Char) (hw : w ∈ kmersOf sq bf.k) :
    contains (addKmersToBloom sq bf) w = true :=
  mem_foldl_insertKmer_contains _ bf w hw

/-! ### `processSegment` basic facts -/

theorem processSegment_eq_pos (rid : List Char) (st : AsmState)
    (seg : List (List Char))
    (hg : allKmersInBloom (pathToSeq seg) st.assembled = true) :
    processSegment rid st seg = st := by
  unfold processSegment
  simp [hg]

theorem processSegment_eq_neg (rid : List Char) (st : AsmState)
    (seg : List (List Char))
    (hg : allKmersInBloom (pathToSeq seg) st.assembled = false) :
    processSegment rid st seg =
      { st with
        assembled := addKmersToBloom (pathToSeq seg) st.assembled,
        output := st.output ++ [⟨st.contigID, rid, pathToSeq seg⟩],
        contigID := st.contigID + 1,
        basesAssembled := st.basesAssembled + (pathToSeq seg).length } := by
  unfold processSegment
  simp [hg]

theorem processSegment_counters (rid : List Char) (st : AsmState)
    (seg : List (List Char)) :
    (processSegment rid st seg).readsProcessed = st.readsProcessed ∧
    (processSegment rid st seg).readsExtended = st.readsExtended := by
  cases hg : allKmersInBloom (pathToSeq seg) st.assembled
  · rw [processSegment_eq_neg rid st seg hg]
    exact ⟨rfl, rfl⟩
  · rw [processSegment_eq_pos rid st seg hg]
    exact ⟨rfl, rfl⟩

theorem processSegment_assembled (rid : List Char) (st : AsmState)
    (seg : List (List Char)) :
    (processSegment rid st seg).assembled.k = st.assembled.k ∧
    (processSegment rid st seg).assembled.hash = st.assembled.hash ∧
    st.assembled.bits ⊆ (processSegment rid st seg).assembled.bits := by
  cases hg : allKmersInBloom (pathToSeq seg) st.assembled
  · rw [processSegment_eq_neg rid st seg hg]
    exact ⟨addKmersToBloom_k _ _, addKmersToBloom_hash _ _, addKmersToBloom_bits _ _⟩
  · rw [processSegment_eq_pos rid st seg hg]
    exact ⟨rfl, rfl, fun _ h => h⟩

theorem foldl_processSegment_counters (rid : List Char)
    (segs : List (List (List Char))) :
    ∀ st : AsmState,
      (segs.foldl (processSegment rid) st).readsProcessed = st.readsProcessed ∧
      (segs.foldl (processSegment rid) st).readsExtended = st.readsExtended := by
  induction segs with
  | nil => intro st; exact ⟨rfl, rfl⟩
  | cons sg rest ih =>
    intro st
    have h1 := processSegment_counters rid st sg
    have h2 := ih (processSegment rid st sg)
    exact ⟨h2.1.trans h1.1, h2.2.trans h1.2⟩

/-! ### C7: the skip conditions of `assemble` -/

/-- C7: a read is skipped by `assemble` — the per-read state is left
untouched except for `readsProcessed`, so no path is built, nothing is
emitted and nothing is inserted into `assembled` — exactly when
`|r.seq| < k`, or not all k-mers of `r.seq` are in `good`, or all k-mers
of `r.seq` are already in `assembled`; a skipped read increments
`readsProcessed` but not `readsExtended` (a non-skipped read increments
both).  Skipping is never fatal: `processRead` is a total function. -/
theorem assemble_skip_iff (good : BloomFilter) (g : Graph (List Char))
    (fuel : Nat) (st : AsmState) (r : Read) :
    (processRead good g fuel st r).readsProcessed = st.readsProcessed + 1 ∧
    ((r.seq.length < good.k ∨ allKmersInBloom r.seq good = false ∨
        allKmersInBloom r.seq st.assembled = true) ↔
      (processRead good g fuel st r).readsExtended = st.readsExtended) ∧
    ((r.seq.length < good.k ∨ allKmersInBloom r.seq good = false ∨
        allKmersInBloom r.seq st.assembled = true) →
      processRead good g fuel st r = { st with readsProcessed := st.readsProcessed + 1 }) := by
  by_cases h1 : r.seq.length < good.k
  · have hpr : processRead good g fuel st r =
        { st with readsProcessed := st.readsProcessed + 1 } := by
      unfold processRead
      rw [if_pos h1]
    rw [hpr]
    exact ⟨rfl, by simp [h1], fun _ => rfl⟩
  · by_cases h2 : allKmersInBloom r.seq good = false
    · have hpr : processRead good g fuel st r =
          { st with readsProcessed := st.readsProcessed + 1 } := by
        unfold processRead
        rw [if_neg h1, if_pos (by simp [h2])]
      rw [hpr]
      exact ⟨rfl, by simp [h2], fun _ => rfl⟩
    · by_cases h3 : allKmersInBloom r.seq st.assembled = true
      · have hpr : processRead good g fuel st r =
            { st with readsProcessed := st.readsProcessed + 1 } := by
          unfold processRead
          rw [if_neg h1, if_neg (by simp_all), if_pos h3]
        rw [hpr]
        exact ⟨rfl, by simp [h3], fun _ => rfl⟩
      · have hgood : allKmersInBloom r.seq good = true := by
          revert h2
          cases allKmersInBloom r.seq good <;> simp
        have hskip : ¬(r.seq.length < good.k ∨
            allKmersInBloom r.seq good = false ∨
            allKmersInBloom r.seq st.assembled = true) := by
          push_neg
          exact ⟨Nat.le_of_not_lt h1, by simp [hgood], h3⟩
        have hpr : processRead good g fuel st r =
            (let segs := splitPath g (seqToPath r.seq good.k 0)
             let segs2 := segs.enum.map (fun iv =>
               if iv.1 = 0 || iv.1 = segs.length - 1 then
                 extendPath g (good.k + 1) fuel iv.2
               else iv.2)
             let st' := segs2.foldl (processSegment r.id) st
             { st' with
               readsExtended := st'.readsExtended + 1,
               readsProcessed := st'.readsProcessed + 1 }) := by
          unfold processRead
          rw [if_neg h1, if_neg (by simp [hgood]), if_neg h3]
        refine ⟨?_, ?_, fun hc => absurd hc hskip⟩
        · rw [hpr]
          simp only
          rw [(foldl_processSegment_counters r.id _ st).1]
        · constructor
          · intro hc
            exact absurd hc hskip
          · intro hre
            exfalso
            rw [hpr] at hre
            simp only at hre
            rw [(foldl_processSegment_counters r.id _ st).2] at hre
            omega

/-- Example concrete Bloom filter (k = 2, one hash value, bit 0 set). -/
def exGood : BloomFilter := ⟨2, fun _ => [0], [0]⟩

/-- Example assembly state with an empty assembled filter (k = 2). -/
def exAsmState : AsmState := ⟨⟨2, fun _ => [0], []⟩, [], 0, 0, 0, 0⟩

/-- Witness for `assemble_skip_iff` on a too-short read. -/
theorem assemble_skip_iff_witness :
    processRead exGood exGraphNone 0 exAsmState ⟨[], ['A']⟩ =
      { exAsmState with readsProcessed := exAsmState.readsProcessed + 1 } :=
  (assemble_skip_iff exGood exGraphNone 0 exAsmState ⟨[], ['A']⟩).2.2
    (Or.inl (by decide))

/-! ### C1: at-most-once emission (dedup through the assembled filter) -/

theorem processSegment_emits (rid : List Char) (st : AsmState)
    (seg : List (List Char))
    (hne : (processSegment rid st seg).output ≠ st.output) :
    (∃ w ∈ kmersOf (pathToSeq seg) st.assembled.k,
        contains st.assembled w = false) ∧
    (processSegment rid st seg).output =
      st.output ++ [⟨st.contigID, rid, pathToSeq seg⟩] ∧
    ∀ w ∈ kmersOf (pathToSeq seg) st.assembled.k,
      contains (processSegment rid st seg).assembled w = true := by
  cases hg : allKmersInBloom (pathToSeq seg) st.assembled
  · refine ⟨?_, ?_, ?_⟩
    · unfold allKmersInBloom at hg
      obtain ⟨w, hw, hwc⟩ := List.all_eq_false.mp hg
      exact ⟨w, hw, by revert hwc; cases contains st.assembled w <;> simp⟩
    · rw [processSegment_eq_neg rid st seg hg]
    · intro w hw
      rw [processSegment_eq_neg rid st seg hg]
      exact addKmersToBloom_contains (pathToSeq seg) st.assembled w hw
  · rw [processSegment_eq_pos rid st seg hg] at hne
    exact absurd rfl hne

/-- The run invariant behind the dedup guarantee: every contig already
written has all its k-mers in the current assembled filter, and no two
written contigs carry the same sequence. -/
def OutInv (st : AsmState) : Prop :=
  (∀ c ∈ st.output, allKmersInBloom c.seq st.assembled = true) ∧
  (st.output.map Contig.seq).Nodup

theorem processSegment_OutInv (rid : List Char) (st : AsmState)
    (seg : List (List Char)) (h : OutInv st) :
    OutInv (processSegment rid st seg) := by
  cases hg : allKmersInBloom (pathToSeq seg) st.assembled
  · rw [processSegment_eq_neg rid st seg hg]
    obtain ⟨hall, hnd⟩ := h
    constructor
    · intro c hc
      simp only [List.mem_append, List.mem_singleton] at hc
      rcases hc with hc | hc
      · exact allKmersInBloom_mono c.seq st.assembled _
          (addKmersToBloom_k _ _) (addKmersToBloom_hash _ _)
          (addKmersToBloom_bits _ _) (hall c hc)
      · subst hc
        unfold allKmersInBloom
        rw [List.all_eq_true]
        intro w hw
        rw [addKmersToBloom_k] at hw
        exact addKmersToBloom_contains _ _ w hw
    · simp only [List.map_append, List.map_cons, List.map_nil]
      refine List.Nodup.append hnd (List.nodup_singleton _) ?_
      intro a ha hb
      simp only [List.mem_singleton] at hb
      subst hb
      obtain ⟨c, hc, hceq⟩ := List.mem_map.mp ha
      have := hall c hc
      rw [hceq] at this
      rw [this] at hg
      simp at hg
  · rw [processSegment_eq_pos rid st seg hg]
    exact h

theorem foldl_processSegment_OutInv (rid : List Char)
    (segs : List (List (List Char))) :
    ∀ st : AsmState, OutInv st →
      OutInv (segs.foldl (processSegment rid) st) := by
  induction segs with
  | nil => exact fun st h => h
  | cons sg rest ih =>
    intro st h
    exact ih (processSegment rid st sg) (processSegment_OutInv rid st sg h)

theorem processRead_OutInv (good : BloomFilter) (g : Graph (List Char))
    (fuel : Nat) (st : AsmState) (r : Read) (h : OutInv st) :
    OutInv (processRead good g fuel st r) := by
  unfold processRead
  by_cases h1 : r.seq.length < good.k
  · rw [if_pos h1]; exact h
  · rw [if_neg h1]
    by_cases h2 : !allKmersInBloom r.seq good
    · rw [if_pos h2]; exact h
    · rw [if_neg h2]
      by_cases h3 : allKmersInBloom r.seq st.assembled = true
      · rw [if_pos h3]; exact h
      · rw [if_neg h3]
        exact foldl_processSegment_OutInv r.id _ st h

theorem foldl_processRead_OutInv (good : BloomFilter) (g : Graph (List Char))
    (fuel : Nat) (reads : List Read) :
    ∀ st : AsmState, OutInv st →
      OutInv (reads.foldl (processRead good g fuel) st) := by
  induction reads with
  | nil => exact fun st h => h
  | cons r rest ih =>
    intro st h
    exact ih (processRead good g fuel st r)
      (processRead_OutInv good g fuel st r h)

/-- C1: emissions are deduplicated through the `assembled` filter.  (i) For
any state, if the per-segment emission step writes anything, then right
before it at least one k-mer of the contig tests absent from `assembled`,
exactly the new record is appended, and afterwards every k-mer of the
contig is in `assembled` (the insertion happens in the same atomic
emission step, before the record is written).  (ii) Consequently, in a
whole (single-threaded) `assemble` run from the initial state, no contig
sequence is ever emitted twice. -/
theorem assemble_dedup (good : BloomFilter) (hashA : List Char → List Nat)
    (g : Graph (List Char)) (fuel : Nat) :
    (∀ (st : AsmState) (rid : List Char) (seg : List (List Char)),
      (processSegment rid st seg).output ≠ st.output →
        (∃ w ∈ kmersOf (pathToSeq seg) st.assembled.k,
            contains st.assembled w = false) ∧
        (processSegment rid st seg).output =
          st.output ++ [⟨st.contigID, rid, pathToSeq seg⟩] ∧
        ∀ w ∈ kmersOf (pathToSeq seg) st.assembled.k,
          contains (processSegment rid st seg).assembled w = true) ∧
    ∀ reads : List Read,
      ((runAssemble good hashA g fuel reads).output.map Contig.seq).Nodup := by
  constructor
  · exact fun st rid seg hne => processSegment_emits rid st seg hne
  · intro reads
    have hinit : OutInv (initState good hashA) := by
      constructor
      · intro c hc
        simp [initState] at hc
      · simp [initState]
    exact (foldl_processRead_OutInv good g fuel reads (initState good hashA) hinit).2

/-- Witness for `assemble_dedup`: a first emission from an empty assembled
filter. -/
theorem assemble_dedup_witness :
    (∃ w ∈ kmersOf (pathToSeq [['A', 'C']]) exAsmState.assembled.k,
        contains exAsmState.assembled w = false) ∧
    (processSegment [] exAsmState [['A', 'C']]).output =
      exAsmState.output ++ [⟨exAsmState.contigID, [], pathToSeq [['A', 'C']]⟩] ∧
    ∀ w ∈ kmersOf (pathToSeq [['A', 'C']]) exAsmState.assembled.k,
      contains (processSegment [] exAsmState [['A', 'C']]).assembled w = true :=
  (assemble_dedup exGood (fun _ => [0]) exGraphNone 0).1
    exAsmState [] [['A', 'C']] (by decide)

/-! ### C3, C10: `trimSeq` — spec-side notions -/

/-- Position `p` of `s` carries a "good" k-mer: the window fits, is
all-ACGT (so the iterator visits it) and its k-mer is in `F`. -/
def goodPosB (s : List Char) (F : BloomFilter) (p : Nat) : Bool :=
  decide (p + F.k ≤ s.length) && validKmer s F.k p &&
    contains F (kmerAt s F.k p)

/-- A run of `L` consecutive good k-mer positions starting at `a`. -/
def runAt (s : List Char) (F : BloomFilter) (a L : Nat) : Prop :=
  ∀ j < L, goodPosB s F (a + j) = true

/-- The substring of `s` at position `i` of length `M` is "good": it is at
least one k-mer long, lies inside `s`, and every one of its length-`k`
windows is a k-mer of `s` present in `F` (its k-mer positions are the
consecutive positions `i .. i + M - k`). -/
def goodSubB (s : List Char) (F : BloomFilter) (i M : Nat) : Bool :=
  decide (F.k ≤ M) && decide (i + M ≤ s.length) &&
    (List.range (M + 1 - F.k)).all (fun j => goodPosB s F (i + j))

/-- Predicate: `(b?, M)` is the first-longest run among runs lying inside `[0, X)`. -/
def BestIn (s : List Char) (F : BloomFilter) (X : Nat) :
    Option Nat → Nat → Prop
  | some b, M => 1 ≤ M ∧ runAt s F b M ∧ b + M ≤ X ∧
      (∀ a L, 1 ≤ L → runAt s F a L → a + L ≤ X → L ≤ M) ∧
      (∀ a, runAt s F a M → a + M ≤ X → b ≤ a)
  | none, M => M = 0 ∧
      ∀ a L, 1 ≤ L → runAt s F a L → a + L ≤ X → False

/-- The boundary below which the scan's best-so-far is authoritative: the
start of the currently open run, or just past the last processed
position. -/
def openBound (q? : Option Nat) (st : TrimState) : Nat :=
  match st.matchStart with
  | some a => a
  | none =>
    match q? with
    | some q => q + 1
    | none => 0

/-- The loop invariant of the `trimSeq` scan after the valid positions up
to and including `q?` (`none` if none yet) have been processed. -/
def InvSt (s : List Char) (F : BloomFilter) (q? : Option Nat)
    (st : TrimState) : Prop :=
  st.prevPos = q? ∧
  (match st.matchStart with
   | some a => 1 ≤ st.matchLen ∧ q? = some (a + st.matchLen - 1) ∧
       runAt s F a st.matchLen ∧
       (a = 0 ∨ goodPosB s F (a - 1) = false)
   | none => st.matchLen = 0 ∧
       ∀ q, q? = some q → goodPosB s F q = false) ∧
  BestIn s F (openBound q? st) st.maxMatchStart st.maxMatchLen

/-- The last processed position after consuming a further list of
positions. -/
def lastOf (q? : Option Nat) : List Nat → Option Nat
  | [] => q?
  | p :: R => lastOf (some p) R

theorem mem_validPositions (s : List Char) (k p : Nat) :
    p ∈ validPositions s k ↔ p + k ≤ s.length ∧ validKmer s k p = true := by
  unfold validPositions
  rw [List.mem_filter, List.mem_range]
  constructor
  · rintro ⟨h1, h2⟩
    exact ⟨by omega, h2⟩
  · rintro ⟨h1, h2⟩
    exact ⟨by omega, h2⟩

theorem goodPosB_iff (s : List Char) (F : BloomFilter) (p : Nat) :
    goodPosB s F p = true ↔
      p ∈ validPositions s F.k ∧ contains F (kmerAt s F.k p) = true := by
  unfold goodPosB
  rw [mem_validPositions]
  simp [Bool.and_eq_true, and_assoc]

theorem goodPosB_fits (s : List Char) (F : BloomFilter) (p : Nat)
    (h : goodPosB s F p = true) : p + F.k ≤ s.length := by
  unfold goodPosB at h
  simp only [Bool.and_eq_true, decide_eq_true_eq] at h
  exact h.1.1

theorem validPositions_sorted (s : List Char) (k : Nat) :
    (validPositions s k).Pairwise (· < ·) :=
  (List.pairwise_lt_range _).filter _

theorem runAt_one (s : List Char) (F : BloomFilter) (p : Nat)
    (hp : goodPosB s F p = true) : runAt s F p 1 := by
  intro j hj
  interval_cases j
  simpa using hp

theorem runAt_extend (s : List Char) (F : BloomFilter) (a L : Nat)
    (h : runAt s F a L) (hp : goodPosB s F (a + L) = true) :
    runAt s F a (L + 1) := by
  intro j hj
  rcases Nat.lt_or_ge j L with hl | hl
  · exact h j hl
  · have : j = L := by omega
    subst this
    exact hp

theorem runAt_last_good (s : List Char) (F : BloomFilter) (a L : Nat)
    (h1 : 1 ≤ L) (h : runAt s F a L) : goodPosB s F (a + L - 1) = true := by
  have := h (L - 1) (by omega)
  rwa [show a + (L - 1) = a + L - 1 by omega] at this

theorem runAt_avoids (s : List Char) (F : BloomFilter) (a L c : Nat)
    (h : runAt s F a L) (hc : goodPosB s F c = false) :
    a + L ≤ c ∨ c < a := by
  by_contra hcon
  push_neg at hcon
  have hj : c - a < L := by omega
  have := h (c - a) hj
  rw [show a + (c - a) = c by omega] at this
  rw [this] at hc
  exact absurd hc (by simp)

theorem BestIn_shift (s : List Char) (F : BloomFilter) (X Y : Nat)
    (b? : Option Nat) (M : Nat) (hXY : X ≤ Y)
    (hno : ∀ a L, 1 ≤ L → runAt s F a L → a + L ≤ Y → a + L ≤ X)
    (h : BestIn s F X b? M) : BestIn s F Y b? M := by
  cases b? with
  | none =>
    exact ⟨h.1, fun a L h1 h2 h3 => h.2 a L h1 h2 (hno a L h1 h2 h3)⟩
  | some b =>
    obtain ⟨hM, hrun, hle, hbound, hties⟩ := h
    exact ⟨hM, hrun, le_trans hle hXY,
      fun a L h1 h2 h3 => hbound a L h1 h2 (hno a L h1 h2 h3),
      fun a h2 h3 => hties a h2 (hno a M hM h2 h3)⟩

/-- Any run bounded by `Y` either lies entirely left of the open run's
start `a`, or starts inside the open run (and then is no longer than it):
runs cannot cross the open run's left edge, and no good position lies
between the open run's right end and `Y`. -/
theorem run_split (s : List Char) (F : BloomFilter) (a mLen Y : Nat)
    (hrun : runAt s F a mLen)
    (hleft : a = 0 ∨ goodPosB s F (a - 1) = false)
    (hnogood : ∀ x, a + mLen ≤ x → x < Y → goodPosB s F x = false)
    (a' L' : Nat) (h1 : 1 ≤ L') (hr' : runAt s F a' L') (hb' : a' + L' ≤ Y) :
    a' + L' ≤ a ∨ (a ≤ a' ∧ L' ≤ mLen ∧ a' + L' ≤ a + mLen) := by
  have hlast : goodPosB s F (a' + L' - 1) = true := runAt_last_good s F a' L' h1 hr'
  have hub : a' + L' ≤ a + mLen := by
    by_contra hcon
    push_neg at hcon
    have := hnogood (a' + L' - 1) (by omega) (by omega)
    rw [this] at hlast
    exact absurd hlast (by simp)
  rcases hleft with h0 | hbad
  · right
    refine ⟨by omega, by omega, hub⟩
  · rcases runAt_avoids s F a' L' (a - 1) hr' hbad with hlo | hhi
    · by_cases ha : a = 0
      · right
        refine ⟨by omega, by omega, hub⟩
      · left
        omega
    · right
      refine ⟨by omega, by omega, hub⟩

/-- Flushing the open run `(a, mLen)` against the recorded best `(b?, M)`
yields the first-longest run within `[0, Y)`, provided no good position
lies in `[a + mLen, Y)`. -/
theorem BestIn_flush (s : List Char) (F : BloomFilter) (a mLen Y : Nat)
    (b? : Option Nat) (M : Nat)
    (hM1 : 1 ≤ mLen) (hrun : runAt s F a mLen)
    (hleft : a = 0 ∨ goodPosB s F (a - 1) = false)
    (hbest : BestIn s F a b? M)
    (hY : a + mLen ≤ Y)
    (hnogood : ∀ x, a + mLen ≤ x → x < Y → goodPosB s F x = false) :
    (M < mLen → BestIn s F Y (some a) mLen) ∧
    (mLen ≤ M → BestIn s F Y b? M) := by
  have hMle : ∀ a' L', 1 ≤ L' → runAt s F a' L' → a' + L' ≤ a → L' ≤ M := by
    intro a' L' h1 h2 h3
    cases b? with
    | none => exact absurd (hbest.2 a' L' h1 h2 h3) (fun h => h)
    | some b => exact hbest.2.2.2.1 a' L' h1 h2 h3
  constructor
  · intro hlt
    refine ⟨hM1, hrun, hY, ?_, ?_⟩
    · intro a' L' h1 hr' hb'
      rcases run_split s F a mLen Y hrun hleft hnogood a' L' h1 hr' hb' with hl | ⟨_, hm, _⟩
      · exact le_trans (hMle a' L' h1 hr' hl) (le_of_lt hlt)
      · exact hm
    · intro a' hr' hb'
      rcases run_split s F a mLen Y hrun hleft hnogood a' mLen hM1 hr' hb' with hl | ⟨hge, _, _⟩
      · have := hMle a' mLen hM1 hr' hl
        omega
      · exact hge
  · intro hge
    have hMS : ∃ b, b? = some b := by
      cases b? with
      | none =>
        exfalso
        have h0 : M = 0 := hbest.1
        omega
      | some b => exact ⟨b, rfl⟩
    obtain ⟨b, rfl⟩ := hMS
    obtain ⟨hM1', hrun', hle', hbound', hties'⟩ := hbest
    refine ⟨hM1', hrun', by omega, ?_, ?_⟩
    · intro a' L' h1 hr' hb'
      rcases run_split s F a mLen Y hrun hleft hnogood a' L' h1 hr' hb' with hl | ⟨_, hm, _⟩
      · exact hbound' a' L' h1 hr' hl
      · omega
    · intro a' hr' hb'
      rcases run_split s F a mLen Y hrun hleft hnogood a' M hM1' hr' hb' with hl | ⟨hge2, hm, _⟩
      · exact hties' a' hr' hl
      · omega

theorem BestIn_global (s : List Char) (F : BloomFilter) (X : Nat)
    (b? : Option Nat) (M : Nat) (h : BestIn s F X b? M)
    (hall : ∀ a L, 1 ≤ L → runAt s F a L → a + L ≤ X)
    (p0 : Nat) (hp0 : goodPosB s F p0 = true) :
    ∃ b, b? = some b ∧ 1 ≤ M ∧ runAt s F b M ∧
      (∀ a L, 1 ≤ L → runAt s F a L → L ≤ M) ∧
      (∀ a, runAt s F a M → b ≤ a) := by
  cases b? with
  | none =>
    exfalso
    exact h.2 p0 1 le_rfl (runAt_one s F p0 hp0)
      (hall p0 1 le_rfl (runAt_one s F p0 hp0))
  | some b =>
    obtain ⟨hM, hrun, _, hbound, hties⟩ := h
    exact ⟨b, rfl, hM, hrun,
      fun a L h1 h2 => hbound a L h1 h2 (hall a L h1 h2),
      fun a h2 => hties a h2 (hall a M hM h2)⟩

/-- One scan step preserves the `trimSeq` loop invariant, where `p` is the
next valid position after the processed ones. -/
theorem trimStep_inv (s : List Char) (F : BloomFilter) (q? : Option Nat)
    (st : TrimState) (p : Nat)
    (hmem : p ∈ validPositions s F.k)
    (habove : ∀ q, q? = some q → q < p)
    (hbetween : ∀ x, goodPosB s F x = true →
      (∀ q, q? = some q → q < x) → p ≤ x)
    (hinv : InvSt s F q? st) :
    InvSt s F (some p) (trimStep F s st p) := by
  obtain ⟨pp, ms, ml, mxs, mxl⟩ := st
  obtain ⟨hpp, hopen, hbest⟩ := hinv
  simp only at hpp hopen hbest
  subst hpp
  have hgoodp : goodPosB s F p = contains F (kmerAt s F.k p) := by
    rw [mem_validPositions] at hmem
    unfold goodPosB
    simp [hmem.1, hmem.2]
  have hnogood : ∀ x, (∀ q', pp = some q' → q' < x) → x < p →
      goodPosB s F x = false := by
    intro x hq hxp
    cases hgx : goodPosB s F x with
    | false => rfl
    | true => exact absurd (hbetween x hgx hq) (by omega)
  cases hc : contains F (kmerAt s F.k p) with
  | true =>
    have hgp : goodPosB s F p = true := by rw [hgoodp, hc]
    cases pp with
    | none =>
      -- first position ever processed
      cases ms with
      | some a =>
        exact absurd hopen.2.1 (by simp)
      | none =>
        have hstep : trimStep F s ⟨none, none, ml, mxs, mxl⟩ p =
            ⟨some p, some p, ml + 1, mxs, mxl⟩ := by
          simp [trimStep, hc]
        rw [hstep]
        have hml : ml = 0 := hopen.1
        subst hml
        refine ⟨rfl, ⟨le_rfl, by simp, runAt_one s F p hgp, ?_⟩, ?_⟩
        · by_cases hp0 : p = 0
          · exact Or.inl hp0
          · refine Or.inr (hnogood (p - 1) (by simp) (by omega))
        · -- best: bound moves from 0 to p, but no runs end at or below p
          refine BestIn_shift s F 0 p mxs mxl (by omega) ?_ ?_
          · intro a L h1 h2 h3
            exfalso
            have hlast := runAt_last_good s F a L h1 h2
            have := hbetween (a + L - 1) hlast (by simp)
            omega
          · simpa [openBound] using hbest
    | some q =>
      have hqp : q < p := habove q rfl
      by_cases hgap : p - q > 1
      · -- gap: end any open run, then start a new one at p
        have hnog : ∀ x, q + 1 ≤ x → x < p → goodPosB s F x = false := by
          intro x h1 h2
          refine hnogood x ?_ h2
          intro q' hq'
          injection hq' with hq'
          omega
        cases ms with
        | some a =>
          obtain ⟨hml, hq, hrun, hleft⟩ := hopen
          injection hq with hq
          have haml : a + ml = q + 1 := by omega
          have hbest' : BestIn s F a mxs mxl := by
            simpa [openBound] using hbest
          have hflush := BestIn_flush s F a ml p mxs mxl hml hrun hleft hbest'
            (by omega) (by rw [haml]; exact hnog)
          by_cases hcmp : ml > mxl
          · have hstep : trimStep F s ⟨some q, some a, ml, mxs, mxl⟩ p =
                ⟨some p, some p, 1, some a, ml⟩ := by
              simp [trimStep, hc, hgap, hcmp]
            rw [hstep]
            refine ⟨rfl, ⟨le_rfl, by simp, runAt_one s F p hgp, ?_⟩, ?_⟩
            · refine Or.inr (hnog (p - 1) (by omega) (by omega))
            · simpa [openBound] using hflush.1 hcmp
          · have hstep : trimStep F s ⟨some q, some a, ml, mxs, mxl⟩ p =
                ⟨some p, some p, 1, mxs, mxl⟩ := by
              simp [trimStep, hc, hgap, hcmp]
            rw [hstep]
            refine ⟨rfl, ⟨le_rfl, by simp, runAt_one s F p hgp, ?_⟩, ?_⟩
            · refine Or.inr (hnog (p - 1) (by omega) (by omega))
            · simpa [openBound] using hflush.2 (by omega)
        | none =>
          obtain ⟨hml, hqbad⟩ := hopen
          subst hml
          have hstep : trimStep F s ⟨some q, none, 0, mxs, mxl⟩ p =
              ⟨some p, some p, 1, mxs, mxl⟩ := by
            simp [trimStep, hc, hgap]
          rw [hstep]
          refine ⟨rfl, ⟨le_rfl, by simp, runAt_one s F p hgp, ?_⟩, ?_⟩
          · refine Or.inr (hnog (p - 1) (by omega) (by omega))
          · -- bound moves from q + 1 to p; no run can end in (q+1, p]
            refine BestIn_shift s F (q + 1) p mxs mxl (by omega) ?_ ?_
            · intro a L h1 h2 h3
              have hlast := runAt_last_good s F a L h1 h2
              by_contra hcon
              push_neg at hcon
              have hx := hnog (a + L - 1) (by omega) (by omega)
              rw [hx] at hlast
              exact absurd hlast (by simp)
            · simpa [openBound] using hbest
      · -- adjacent: p = q + 1
        have hpq : p = q + 1 := by omega
        cases ms with
        | some a =>
          obtain ⟨hml, hq, hrun, hleft⟩ := hopen
          injection hq with hq
          have hstep : trimStep F s ⟨some q, some a, ml, mxs, mxl⟩ p =
              ⟨some p, some a, ml + 1, mxs, mxl⟩ := by
            simp [trimStep, hc, hgap]
          rw [hstep]
          have hext : runAt s F a (ml + 1) := by
            refine runAt_extend s F a ml hrun ?_
            rw [show a + ml = p by omega]
            exact hgp
          refine ⟨rfl, ?_, ?_⟩
          · show 1 ≤ ml + 1 ∧ some p = some (a + (ml + 1) - 1) ∧
              runAt s F a (ml + 1) ∧ (a = 0 ∨ goodPosB s F (a - 1) = false)
            refine ⟨by omega, by rw [show a + (ml + 1) - 1 = p by omega],
              hext, hleft⟩
          · simpa [openBound] using hbest
        | none =>
          obtain ⟨hml, hqbad⟩ := hopen
          subst hml
          have hstep : trimStep F s ⟨some q, none, 0, mxs, mxl⟩ p =
              ⟨some p, some p, 1, mxs, mxl⟩ := by
            simp [trimStep, hc, hgap]
          rw [hstep]
          refine ⟨rfl, ⟨le_rfl, by simp, runAt_one s F p hgp, ?_⟩, ?_⟩
          · refine Or.inr ?_
            rw [show p - 1 = q by omega]
            exact hqbad q rfl
          · -- bound stays: q + 1 = p
            rw [show openBound (some p) ⟨some p, some p, 1, mxs, mxl⟩ = p from rfl]
            have := hbest
            rw [show openBound (some q) ⟨some q, none, 0, mxs, mxl⟩ = q + 1 from rfl] at this
            rwa [hpq]
  | false =>
    -- k-mer not in the filter: close any open run, do not start a new one
    have hgpf : goodPosB s F p = false := by rw [hgoodp, hc]
    have hnogoodp : ∀ x, (∀ q', pp = some q' → q' < x) → x < p + 1 →
        goodPosB s F x = false := by
      intro x hq hxp
      by_cases hxpe : x = p
      · rw [hxpe]; exact hgpf
      · exact hnogood x hq (by omega)
    cases pp with
    | none =>
      cases ms with
      | some a =>
        exact absurd hopen.2.1 (by simp)
      | none =>
        have hml : ml = 0 := hopen.1
        subst hml
        have hstep : trimStep F s ⟨none, none, 0, mxs, mxl⟩ p =
            ⟨some p, none, 0, mxs, mxl⟩ := by
          simp [trimStep, hc]
        rw [hstep]
        refine ⟨rfl, ⟨rfl, ?_⟩, ?_⟩
        · intro q hq
          injection hq with hq
          rw [← hq]
          exact hgpf
        · refine BestIn_shift s F 0 (p + 1) mxs mxl (by omega) ?_ ?_
          · intro a L h1 h2 h3
            exfalso
            have hlast := runAt_last_good s F a L h1 h2
            have hx := hnogoodp (a + L - 1) (by simp) (by omega)
            rw [hx] at hlast
            exact absurd hlast (by simp)
          · simpa [openBound] using hbest
    | some q =>
      have hqp : q < p := habove q rfl
      have hnog : ∀ x, q + 1 ≤ x → x < p + 1 → goodPosB s F x = false := by
        intro x h1 h2
        refine hnogoodp x ?_ h2
        intro q' hq'
        injection hq' with hq'
        omega
      cases ms with
      | some a =>
        obtain ⟨hml, hq, hrun, hleft⟩ := hopen
        injection hq with hq
        have haml : a + ml = q + 1 := by omega
        have hbest' : BestIn s F a mxs mxl := by
          simpa [openBound] using hbest
        have hflush := BestIn_flush s F a ml (p + 1) mxs mxl hml hrun hleft hbest'
          (by omega) (by rw [haml]; exact hnog)
        by_cases hcmp : ml > mxl
        · have hstep : trimStep F s ⟨some q, some a, ml, mxs, mxl⟩ p =
              ⟨some p, none, 0, some a, ml⟩ := by
            simp [trimStep, hc, hcmp]
          rw [hstep]
          refine ⟨rfl, ⟨rfl, ?_⟩, ?_⟩
          · intro q' hq'
            injection hq' with hq'
            rw [← hq']
            exact hgpf
          · simpa [openBound] using hflush.1 hcmp
        · have hstep : trimStep F s ⟨some q, some a, ml, mxs, mxl⟩ p =
              ⟨some p, none, 0, mxs, mxl⟩ := by
            simp [trimStep, hc, hcmp]
          rw [hstep]
          refine ⟨rfl, ⟨rfl, ?_⟩, ?_⟩
          · intro q' hq'
            injection hq' with hq'
            rw [← hq']
            exact hgpf
          · simpa [openBound] using hflush.2 (by omega)
      | none =>
        obtain ⟨hml, hqbad⟩ := hopen
        subst hml
        have hstep : trimStep F s ⟨some q, none, 0, mxs, mxl⟩ p =
            ⟨some p, none, 0, mxs, mxl⟩ := by
          simp [trimStep, hc]
        rw [hstep]
        refine ⟨rfl, ⟨rfl, ?_⟩, ?_⟩
        · intro q' hq'
          injection hq' with hq'
          rw [← hq']
          exact hgpf
        · refine BestIn_shift s F (q + 1) (p + 1) mxs mxl (by omega) ?_ ?_
          · intro a L h1 h2 h3
            have hlast := runAt_last_good s F a L h1 h2
            by_contra hcon
            push_neg at hcon
            have hx := hnog (a + L - 1) (by omega) (by omega)
            rw [hx] at hlast
            exact absurd hlast (by simp)
          · simpa [openBound] using hbest

/-- The `trimSeq` loop invariant is preserved by folding over the whole
remaining list of valid positions. -/
theorem trimFold (s : List Char) (F : BloomFilter) (R : List Nat) :
    ∀ (q? : Option Nat) (st : TrimState),
      R.Pairwise (· < ·) →
      (∀ x ∈ R, x ∈ validPositions s F.k) →
      (∀ x, x ∈ validPositions s F.k → (∀ q, q? = some q → q < x) → x ∈ R) →
      (∀ x ∈ R, ∀ q, q? = some q → q < x) →
      InvSt s F q? st →
      InvSt s F (lastOf q? R) (R.foldl (trimStep F s) st) := by
  induction R with
  | nil =>
    intro q? st _ _ _ _ h
    exact h
  | cons p R' ih =>
    intro q? st hsort hmem hcompl habove hinv
    obtain ⟨hpR, hsort'⟩ := List.pairwise_cons.mp hsort
    have hmemp : p ∈ validPositions s F.k := hmem p (by simp)
    have hstep := trimStep_inv s F q? st p hmemp
      (fun q hq => habove p (by simp) q hq)
      (fun x hgx hq => by
        have hxps : x ∈ validPositions s F.k := ((goodPosB_iff s F x).mp hgx).1
        have hxR : x ∈ p :: R' := hcompl x hxps hq
        rcases List.mem_cons.mp hxR with h1 | h2
        · omega
        · have := hpR x h2
          omega)
      hinv
    have hres := ih (some p) (trimStep F s st p) hsort'
      (fun x hx => hmem x (by simp [hx]))
      (fun x hxps hq => by
        have hpx : p < x := hq p rfl
        have hxR : x ∈ p :: R' := hcompl x hxps (fun q hqq => by
          have := habove p (by simp) q hqq
          omega)
        rcases List.mem_cons.mp hxR with h1 | h2
        · omega
        · exact h2)
      (fun x hx q hq => by
        injection hq with hq
        subst hq
        exact hpR x hx)
      hstep
    exact hres

theorem lastOf_ge (R : List Nat) :
    ∀ q : Nat, (∀ x ∈ R, q ≤ x) → R.Pairwise (· < ·) →
      ∃ l, lastOf (some q) R = some l ∧ q ≤ l ∧ ∀ x ∈ R, x ≤ l := by
  induction R with
  | nil =>
    intro q _ _
    exact ⟨q, rfl, le_rfl, by simp⟩
  | cons p R' ih =>
    intro q hall hsort
    obtain ⟨hpR, hsort'⟩ := List.pairwise_cons.mp hsort
    obtain ⟨l, heq, hpl, hup⟩ := ih p (fun x hx => le_of_lt (hpR x hx)) hsort'
    refine ⟨l, heq, le_trans (hall p (by simp)) hpl, ?_⟩
    intro x hx
    rcases List.mem_cons.mp hx with h1 | h2
    · subst h1
      exact hpl
    · exact hup x h2

theorem lastOf_none_bound (R : List Nat) (hsort : R.Pairwise (· < ·))
    (x : Nat) (hx : x ∈ R) : ∃ l, lastOf none R = some l ∧ x ≤ l := by
  cases R with
  | nil => simp at hx
  | cons p R' =>
    obtain ⟨hpR, hsort'⟩ := List.pairwise_cons.mp hsort
    obtain ⟨l, heq, hpl, hup⟩ :=
      lastOf_ge R' p (fun y hy => le_of_lt (hpR y hy)) hsort'
    refine ⟨l, heq, ?_⟩
    rcases List.mem_cons.mp hx with h1 | h2
    · subst h1
      exact hpl
    · exact hup x h2

theorem final_flush_nogood (s : List Char) (F : BloomFilter)
    (q? : Option Nat) (st : TrimState) (hinv : InvSt s F q? st)
    (hnone : ∀ p, goodPosB s F p = false) : (trimFlush st).2 = 0 := by
  obtain ⟨pp, ms, ml, mxs, mxl⟩ := st
  obtain ⟨_, hopen, hbest⟩ := hinv
  simp only at hopen hbest
  cases ms with
  | some a =>
    exfalso
    have hg := hopen.2.2.1 0 (by omega)
    rw [hnone (a + 0)] at hg
    exact absurd hg (by simp)
  | none =>
    have hml : ml = 0 := hopen.1
    cases mxs with
    | some b =>
      exfalso
      have hg := hbest.2.1 0 hbest.1
      rw [hnone (b + 0)] at hg
      exact absurd hg (by simp)
    | none =>
      have hmxl : mxl = 0 := hbest.1
      subst hml hmxl
      simp [trimFlush]

theorem final_flush_good (s : List Char) (F : BloomFilter)
    (q? : Option Nat) (st : TrimState) (hinv : InvSt s F q? st)
    (p0 : Nat) (hp0 : goodPosB s F p0 = true)
    (hlast : ∀ x, goodPosB s F x = true →
      ∃ q, q? = some q ∧ x ≤ q) :
    ∃ b M, trimFlush st = (some b, M) ∧ 1 ≤ M ∧ runAt s F b M ∧
      (∀ a L, 1 ≤ L → runAt s F a L → L ≤ M) ∧
      (∀ a, runAt s F a M → b ≤ a) := by
  obtain ⟨Q, hQ, _⟩ := hlast p0 hp0
  subst hQ
  obtain ⟨_, hopen, hbest⟩ := hinv
  obtain ⟨pp, ms, ml, mxs, mxl⟩ := st
  simp only at hopen hbest
  have hallbound : ∀ a L, 1 ≤ L → runAt s F a L → a + L ≤ Q + 1 := by
    intro a L h1 h2
    have hlastg := runAt_last_good s F a L h1 h2
    obtain ⟨q', hq', hle⟩ := hlast (a + L - 1) hlastg
    injection hq' with hq'
    omega
  cases ms with
  | some a =>
    obtain ⟨hml, hq, hrun, hleft⟩ := hopen
    injection hq with hq
    have haml : a + ml = Q + 1 := by omega
    have hbest' : BestIn s F a mxs mxl := by
      simpa [openBound] using hbest
    have hflush := BestIn_flush s F a ml (Q + 1) mxs mxl hml hrun hleft hbest'
      (by omega) (by intro x h1 h2; omega)
    by_cases hcmp : ml > mxl
    · have hfl : trimFlush ⟨pp, some a, ml, mxs, mxl⟩ = (some a, ml) := by
        simp [trimFlush, hcmp]
      obtain ⟨b, hb, hM, hrunb, hbound, hties⟩ :=
        BestIn_global s F (Q + 1) (some a) ml (hflush.1 hcmp) hallbound p0 hp0
      injection hb with hb
      subst hb
      exact ⟨a, ml, hfl, hM, hrunb, hbound, hties⟩
    · have hfl : trimFlush ⟨pp, some a, ml, mxs, mxl⟩ = (mxs, mxl) := by
        simp [trimFlush, hcmp]
      obtain ⟨b, hb, hM, hrunb, hbound, hties⟩ :=
        BestIn_global s F (Q + 1) mxs mxl (hflush.2 (by omega)) hallbound p0 hp0
      subst hb
      exact ⟨b, mxl, hfl, hM, hrunb, hbound, hties⟩
  | none =>
    obtain ⟨hml, _⟩ := hopen
    subst hml
    have hfl : trimFlush ⟨pp, none, 0, mxs, mxl⟩ = (mxs, mxl) := by
      simp [trimFlush]
    have hbest' : BestIn s F (Q + 1) mxs mxl := by
      simpa [openBound] using hbest
    obtain ⟨b, hb, hM, hrunb, hbound, hties⟩ :=
      BestIn_global s F (Q + 1) mxs mxl hbest' hallbound p0 hp0
    subst hb
    exact ⟨b, mxl, hfl, hM, hrunb, hbound, hties⟩

/-- Master characterisation of `trimSeq`: either no position of `seq`
carries a good k-mer and the result is empty, or the result is the
extraction of the first-longest run of consecutive good k-mer
positions. -/
theorem trimSeq_char (s : List Char) (F : BloomFilter) :
    ((∀ p, goodPosB s F p = false) ∧ trimSeq s F = []) ∨
    (∃ b M, 1 ≤ M ∧ runAt s F b M ∧
      (∀ a L, 1 ≤ L → runAt s F a L → L ≤ M) ∧
      (∀ a, runAt s F a M → b ≤ a) ∧
      trimSeq s F = (s.drop b).take (M + F.k - 1)) := by
  have hfold := trimFold s F (validPositions s F.k) none ⟨none, none, 0, none, 0⟩
    (validPositions_sorted s F.k) (fun x hx => hx) (fun x hx _ => hx)
    (fun x _ q hq => by simp at hq)
    ⟨rfl, ⟨rfl, fun q hq => by simp at hq⟩, rfl, fun a L h1 _ h3 => by
      simp only [openBound] at h3
      omega⟩
  by_cases hex : ∃ p, goodPosB s F p = true
  · right
    obtain ⟨p0, hp0⟩ := hex
    have hlast : ∀ x, goodPosB s F x = true →
        ∃ q, lastOf none (validPositions s F.k) = some q ∧ x ≤ q := by
      intro x hx
      exact lastOf_none_bound (validPositions s F.k)
        (validPositions_sorted s F.k) x ((goodPosB_iff s F x).mp hx).1
    obtain ⟨b, M, hfl, hM1, hrun, hbound, hties⟩ :=
      final_flush_good s F _ _ hfold p0 hp0 hlast
    refine ⟨b, M, hM1, hrun, hbound, hties, ?_⟩
    have hkn : ¬(s.length < F.k) := by
      have := goodPosB_fits s F p0 hp0
      omega
    unfold trimSeq
    rw [if_neg hkn]
    simp only [hfl]
    rw [if_neg (by omega)]
  · left
    have hnone : ∀ p, goodPosB s F p = false := by
      intro p
      cases h : goodPosB s F p with
      | false => rfl
      | true => exact absurd ⟨p, h⟩ hex
    refine ⟨hnone, ?_⟩
    by_cases hkn : s.length < F.k
    · unfold trimSeq
      rw [if_pos hkn]
    · have hfl0 := final_flush_nogood s F _ _ hfold hnone
      unfold trimSeq
      rw [if_neg hkn]
      simp only
      rw [if_pos hfl0]

theorem goodSubB_iff (s : List Char) (F : BloomFilter) (i M : Nat) :
    goodSubB s F i M = true ↔
      F.k ≤ M ∧ i + M ≤ s.length ∧
        ∀ j < M + 1 - F.k, goodPosB s F (i + j) = true := by
  unfold goodSubB
  simp [List.all_eq_true, Bool.and_eq_true, and_assoc]

/-- C3: `trimSeq(seq, F)` replaces `seq` with its first-longest contiguous
substring `S` all of whose length-`k` windows are k-mers present in `F`
(so the k-mer positions of `S` are consecutive); if `|seq| < k` or no
k-mer of `seq` is in `F`, the result is the empty string; among longest
such substrings the first (leftmost) wins. -/
theorem trimSeq_correct (s : List Char) (F : BloomFilter) :
    (s.length < F.k → trimSeq s F = []) ∧
    ((∀ p, goodPosB s F p = false) → trimSeq s F = []) ∧
    ((∃ p, goodPosB s F p = true) →
      ∃ i M, goodSubB s F i M = true ∧
        trimSeq s F = (s.drop i).take M ∧
        (∀ i2 M2, goodSubB s F i2 M2 = true → M2 ≤ M) ∧
        (∀ i2, goodSubB s F i2 M = true → i ≤ i2)) := by
  refine ⟨?_, ?_, ?_⟩
  · intro h
    unfold trimSeq
    rw [if_pos h]
  · intro hnone
    rcases trimSeq_char s F with ⟨_, h⟩ | ⟨b, M, hM1, hrun, _, _, _⟩
    · exact h
    · exfalso
      have hg := hrun 0 (by omega)
      rw [hnone (b + 0)] at hg
      exact absurd hg (by simp)
  · rintro ⟨p0, hp0⟩
    rcases trimSeq_char s F with ⟨hnone, _⟩ | ⟨b, M, hM1, hrun, hbound, hties, heq⟩
    · rw [hnone p0] at hp0
      exact absurd hp0 (by simp)
    · have hfit : (b + M - 1) + F.k ≤ s.length :=
        goodPosB_fits s F _ (runAt_last_good s F b M hM1 hrun)
      refine ⟨b, M + F.k - 1, ?_, heq, ?_, ?_⟩
      · rw [goodSubB_iff]
        refine ⟨by omega, by omega, ?_⟩
        rw [show M + F.k - 1 + 1 - F.k = M by omega]
        exact hrun
      · intro i2 M2 h2
        rw [goodSubB_iff] at h2
        obtain ⟨hk2, hfit2, hrun2⟩ := h2
        have := hbound i2 (M2 + 1 - F.k) (by omega) hrun2
        omega
      · intro i2 h2
        rw [goodSubB_iff] at h2
        obtain ⟨hk2, hfit2, hrun2⟩ := h2
        rw [show M + F.k - 1 + 1 - F.k = M by omega] at hrun2
        exact hties i2 hrun2

/-- A filter whose `contains` always answers true (no hash values). -/
def exFilterAll : BloomFilter := ⟨2, fun _ => [], []⟩

/-- Witness for `trimSeq_correct` on an all-good sequence. -/
theorem trimSeq_correct_witness :
    ∃ i M, goodSubB ['A', 'C', 'G'] exFilterAll i M = true ∧
      trimSeq ['A', 'C', 'G'] exFilterAll =
        ((['A', 'C', 'G'] : List Char).drop i).take M ∧
      (∀ i2 M2, goodSubB ['A', 'C', 'G'] exFilterAll i2 M2 = true → M2 ≤ M) ∧
      (∀ i2, goodSubB ['A', 'C', 'G'] exFilterAll i2 M = true → i ≤ i2) :=
  (trimSeq_correct ['A', 'C', 'G'] exFilterAll).2.2 ⟨0, by decide⟩

/-- C10: after `trimSeq` the sequence is either empty or a contiguous
substring of the original of length exactly `matchLen + k - 1` for some
`matchLen ≥ 1`, hence of length at least `k`. -/
theorem trimSeq_shape (s : List Char) (F : BloomFilter) :
    trimSeq s F = [] ∨
    ∃ i L, 1 ≤ L ∧ i + (L + F.k - 1) ≤ s.length ∧
      trimSeq s F = (s.drop i).take (L + F.k - 1) ∧
      (trimSeq s F).length = L + F.k - 1 ∧
      F.k ≤ (trimSeq s F).length := by
  rcases trimSeq_char s F with ⟨_, h⟩ | ⟨b, M, hM1, hrun, _, _, heq⟩
  · exact Or.inl h
  · right
    have hfit : (b + M - 1) + F.k ≤ s.length :=
      goodPosB_fits s F _ (runAt_last_good s F b M hM1 hrun)
    refine ⟨b, M, hM1, by omega, heq, ?_, ?_⟩
    · rw [heq, List.length_take, List.length_drop]
      omega
    · rw [heq, List.length_take, List.length_drop]
      omega

end BloomDBG
